import Mathlib

/-!
Shallow embedding of the schema-tree core of the libyang header
`src/tree_schema_internal.h`: the cross-cutting validators, the
revision bookkeeping, the node-kind accessors, the prefix/typedef
resolver, the module loader and the shared context.  The repository
ships only the header (declarations and their documentation), so the
function bodies are modelled from the specification's description of
each operation; every such definition says so in its doc comment.
-/

/-- Error codes of the library, mirroring the LY_ERR enumeration used by the header. -/
inductive LY_ERR where
  | LY_SUCCESS
  | LY_EINVAL
  | LY_EEXIST
  | LY_EVALID
  | LY_ENOTFOUND
  | LY_EDENIED
  | LY_EINT
deriving DecidableEq, Repr

open LY_ERR

/-- Strict lexicographic comparison of character lists, the model of C `strcmp(a,b) < 0`.
Used for revision-date ordering ("newest" comparisons). -/
def strLtB : List Char → List Char → Bool
  | [], [] => false
  | [], _ :: _ => true
  | _ :: _, [] => false
  | x :: xs, y :: ys =>
    if x.toNat < y.toNat then true
    else if y.toNat < x.toNat then false
    else strLtB xs ys

/-- A typedef as stored in a parsed schema tree: a name and the referenced base type. -/
structure LyspTpdf where
  name : String
  typ : String
deriving DecidableEq, Repr, Inhabited

/-- A revision entry of a parsed module: a date string and a free-text description. -/
structure LyspRevision where
  date : String
  dsc : String
deriving DecidableEq, Repr, Inhabited

/-- A character is an ASCII decimal digit. -/
def isDigitChar (c : Char) : Bool := 48 ≤ c.toNat && c.toNat ≤ 57

/-- Numeric value of an ASCII digit character. -/
def digitVal (c : Char) : Nat := c.toNat - 48

/-- Modelled from the spec: the shape part of `lysp_check_date` (whose body is not in the
repository) — the token is exactly 4 digits, `-`, 2 digits, `-`, 2 digits, all digit
positions numeric, with the expected separators. -/
def dateShapeChars (cs : List Char) : Bool :=
  match cs with
  | [y1, y2, y3, y4, s1, m1, m2, s2, d1, d2] =>
    isDigitChar y1 && isDigitChar y2 && isDigitChar y3 && isDigitChar y4 &&
    (s1 == '-') && isDigitChar m1 && isDigitChar m2 && (s2 == '-') &&
    isDigitChar d1 && isDigitChar d2
  | _ => false

/-- Gregorian leap-year rule. -/
def isLeap (y : Nat) : Bool := y % 4 == 0 && (y % 100 != 0 || y % 400 == 0)

/-- Number of days of month `m` in year `y`. -/
def daysInMonth (y m : Nat) : Nat :=
  if m == 2 then (if isLeap y then 29 else 28)
  else if m == 4 || m == 6 || m == 9 || m == 11 then 30
  else 31

/-- Modelled from the spec: the calendar part of `lysp_check_date` — the month and the
day denote an existing calendar date (the spec rejects `2021-02-30`). -/
def dateCalendarOk (cs : List Char) : Bool :=
  match cs with
  | [y1, y2, y3, y4, _, m1, m2, _, d1, d2] =>
    let y := digitVal y1 * 1000 + digitVal y2 * 100 + digitVal y3 * 10 + digitVal y4
    let m := digitVal m1 * 10 + digitVal m2
    let d := digitVal d1 * 10 + digitVal d2
    (1 ≤ m) && (m ≤ 12) && (1 ≤ d) && (d ≤ daysInMonth y m)
  | _ => false

/-- Modelled from the spec: `lysp_check_date` (body not in the repository; the header
declares it at src/tree_schema_internal.h:72).  The expected length is 10; a wrong
length is an invalid-argument error, a malformed or non-existing date a validation
error.  The statement name is only used for error reporting and does not influence
the verdict. -/
def lysp_check_date (date : String) (date_len : Nat) (stmt : String) : LY_ERR :=
  if date_len ≠ 10 || date.length ≠ date_len then LY_EINVAL
  else if !dateShapeChars date.data then LY_EVALID
  else if !dateCalendarOk date.data then LY_EVALID
  else LY_SUCCESS

/-- The acceptance condition exactly as the claim words it (shape only: 4 digits,
`-`, 2 digits, `-`, 2 digits, numeric digit positions, expected separators),
kept separate from the source-modelled checker so the two can be compared. -/
def claimDateShape (date : String) : Bool := dateShapeChars date.data

/-- Modelled from the spec: the selection step of `lysp_sort_revisions` — walk the
list keeping the newest entry seen so far; every entry not selected is emitted in
encounter order, so the remainder is neither sorted nor deduplicated. -/
def extractNewest : LyspRevision → List LyspRevision → LyspRevision × List LyspRevision
  | best, [] => (best, [])
  | best, r :: rs =>
    if strLtB best.date.data r.date.data then
      let p := extractNewest r rs
      (p.1, best :: p.2)
    else
      let p := extractNewest best rs
      (p.1, r :: p.2)

/-- Modelled from the spec: `lysp_sort_revisions` (body not in the repository; header
line 86) — "Just move the newest revision into the first position, does not sort the
rest". -/
def lysp_sort_revisions (revs : List LyspRevision) : List LyspRevision :=
  match revs with
  | [] => []
  | r :: rs =>
    let p := extractNewest r rs
    p.1 :: p.2

/-- Kinds of data-definition nodes of a parsed schema tree. -/
inductive NodeKind where
  | container | leaf | leaflist | list | choice | cas | anydata | anyxml
  | uses | augment | grouping | action | notif
deriving DecidableEq, Repr

/-- Modelled from the spec: the polymorphic parsed-node family — a sum over node
kinds where each variant embeds only the substatement slots legal for that kind
(containers/lists/groupings own typedefs, actions, notifications and children;
choice/case/augment own children only; action and notification own typedefs,
notification also children; leafs and the leaf-like kinds own none of these). -/
inductive PNode where
  | container (name : String) (typedefs : List LyspTpdf) (actions : List String)
      (notifs : List String) (children : List PNode)
  | leaf (name : String)
  | leaflist (name : String)
  | list (name : String) (typedefs : List LyspTpdf) (actions : List String)
      (notifs : List String) (children : List PNode)
  | choice (name : String) (children : List PNode)
  | cas (name : String) (children : List PNode)
  | anydata (name : String)
  | anyxml (name : String)
  | uses (name : String)
  | augment (name : String) (children : List PNode)
  | grouping (name : String) (typedefs : List LyspTpdf) (actions : List String)
      (notifs : List String) (children : List PNode)
  | action (name : String) (typedefs : List LyspTpdf)
  | notif (name : String) (typedefs : List LyspTpdf) (children : List PNode)

/-- The kind tag of a parsed node. -/
def PNode.kind : PNode → NodeKind
  | .container .. => .container
  | .leaf .. => .leaf
  | .leaflist .. => .leaflist
  | .list .. => .list
  | .choice .. => .choice
  | .cas .. => .cas
  | .anydata .. => .anydata
  | .anyxml .. => .anyxml
  | .uses .. => .uses
  | .augment .. => .augment
  | .grouping .. => .grouping
  | .action .. => .action
  | .notif .. => .notif

/-- Which node kinds own a local typedef list. -/
def hasTpdfSlot : NodeKind → Bool
  | .container | .list | .grouping | .action | .notif => true
  | _ => false

/-- Which node kinds own an actions list. -/
def hasActionSlot : NodeKind → Bool
  | .container | .list | .grouping => true
  | _ => false

/-- Which node kinds own a notifications list. -/
def hasNotifSlot : NodeKind → Bool
  | .container | .list | .grouping => true
  | _ => false

/-- Which node kinds own a children list. -/
def hasChildSlot : NodeKind → Bool
  | .container | .list | .choice | .cas | .augment | .grouping | .notif => true
  | _ => false

/-- Modelled from the spec: `lysp_node_typedefs` (header line 133) — single dispatch
over the node kind, the node's typedefs slot when the kind owns one, none otherwise. -/
def lysp_node_typedefs : PNode → Option (List LyspTpdf)
  | .container _ t _ _ _ => some t
  | .list _ t _ _ _ => some t
  | .grouping _ t _ _ _ => some t
  | .action _ t => some t
  | .notif _ t _ => some t
  | _ => none

/-- Modelled from the spec: `lysp_node_actions` (header line 142) — the node's
actions slot when the kind owns one, none otherwise. -/
def lysp_node_actions : PNode → Option (List String)
  | .container _ _ a _ _ => some a
  | .list _ _ a _ _ => some a
  | .grouping _ _ a _ _ => some a
  | _ => none

/-- Modelled from the spec: `lysp_node_notifs` (header line 151) — the node's
notifications slot when the kind owns one, none otherwise. -/
def lysp_node_notifs : PNode → Option (List String)
  | .container _ _ _ f _ => some f
  | .list _ _ _ f _ => some f
  | .grouping _ _ _ f _ => some f
  | _ => none

/-- Modelled from the spec: `lysp_node_children` (header line 160) — the node's
children slot when the kind owns one, none otherwise (a leaf has no children slot). -/
def lysp_node_children : PNode → Option (List PNode)
  | .container _ _ _ _ c => some c
  | .list _ _ _ _ c => some c
  | .choice _ c => some c
  | .cas _ c => some c
  | .augment _ c => some c
  | .grouping _ _ _ _ c => some c
  | .notif _ _ c => some c
  | _ => none

/-- Modelled from the spec: the compiled-node family, mirroring the parsed shapes
with resolved references; only the children slot matters for the accessor below. -/
inductive CNode where
  | container (name : String) (children : List CNode)
  | leaf (name : String)
  | leaflist (name : String)
  | list (name : String) (children : List CNode)
  | choice (name : String) (children : List CNode)
  | cas (name : String) (children : List CNode)
  | anydata (name : String)
  | anyxml (name : String)
  | notif (name : String) (children : List CNode)

/-- The kind tag of a compiled node (the kinds without a compiled variant are
collapsed into the corresponding parsed kind names). -/
def CNode.kind : CNode → NodeKind
  | .container .. => .container
  | .leaf .. => .leaf
  | .leaflist .. => .leaflist
  | .list .. => .list
  | .choice .. => .choice
  | .cas .. => .cas
  | .anydata .. => .anydata
  | .anyxml .. => .anyxml
  | .notif .. => .notif

/-- Modelled from the spec: `lysc_node_children` (header line 169) — the compiled
node's children slot when the kind owns one, none otherwise. -/
def lysc_node_children : CNode → Option (List CNode)
  | .container _ c => some c
  | .list _ c => some c
  | .choice _ c => some c
  | .cas _ c => some c
  | .notif _ c => some c
  | _ => none

/-- Modelled from the spec: a parsed module — name, self-prefix, top-level typedefs,
data nodes and imports, where each import binds a prefix string to the imported
module (the header keeps a resolved module pointer in each import record). -/
inductive LyspModule where
  | mk (name : String) (selfPfx : String) (typedefs : List LyspTpdf)
      (nodes : List PNode) (imports : List (String × LyspModule))

/-- Module name. -/
def LyspModule.name : LyspModule → String
  | .mk n _ _ _ _ => n

/-- The module's own prefix. -/
def LyspModule.selfPfx : LyspModule → String
  | .mk _ p _ _ _ => p

/-- Top-level typedef list. -/
def LyspModule.typedefs : LyspModule → List LyspTpdf
  | .mk _ _ t _ _ => t

/-- Top-level data nodes. -/
def LyspModule.nodes : LyspModule → List PNode
  | .mk _ _ _ ns _ => ns

/-- Import table: bound prefix paired with the imported module. -/
def LyspModule.imports : LyspModule → List (String × LyspModule)
  | .mk _ _ _ _ is => is

/-- Modelled from the spec: `lysp_module_find_prefix` (header line 179) — scan the
module's imports for the given prefix; the module's own assigned prefix is also
checked so that a self-prefixed reference resolves without an import entry. -/
def lysp_module_find_prefix (m : LyspModule) (pfx : String) : Option LyspModule :=
  match m.imports.find? (fun p => p.1 == pfx) with
  | some p => some p.2
  | none => if pfx == m.selfPfx then some m else none

/-- A type identifier: an optional prefix and a name. -/
structure TypeId where
  pfx : Option String
  name : String
deriving DecidableEq, Repr

/-- The built-in type keywords of the language. -/
def builtinTypes : List String :=
  ["binary", "bits", "boolean", "decimal64", "empty", "enumeration", "identityref",
   "instance-identifier", "int8", "int16", "int32", "int64", "leafref", "string",
   "uint8", "uint16", "uint32", "uint64", "union"]

/-- Find a typedef by name in one typedef list. -/
def findTpdf (l : List LyspTpdf) (n : String) : Option LyspTpdf :=
  l.find? (fun t => t.name == n)

/-- Modelled from the spec: the unprefixed ancestor-chain walk of `lysp_type_find` —
check each ancestor's local typedef list (for kinds that own one), nearest scope
first.  The C code walks parent pointers; here the chain from the start node up to
the top level is passed explicitly, nearest first. -/
def searchChain (n : String) : List PNode → Option (LyspTpdf × PNode)
  | [] => none
  | nd :: rest =>
    match findTpdf ((lysp_node_typedefs nd).getD []) n with
    | some t => some (t, nd)
    | none => searchChain n rest

/-- Modelled from the spec: `lysp_type_find` (header line 98) — a prefixed identifier
is resolved through the prefix to a module and searched only in that module's
top-level typedefs; an unprefixed identifier is searched along the ancestor chain
(nearest scope first), then in the module's own top level, and finally against the
built-in type keywords (owning module is none for a built-in). -/
def lysp_type_find (id : TypeId) (chain : List PNode) (start_module : LyspModule) :
    Option (LyspTpdf × Option PNode × Option LyspModule) :=
  match id.pfx with
  | some p =>
    match lysp_module_find_prefix start_module p with
    | none => none
    | some m =>
      match findTpdf m.typedefs id.name with
      | some t => some (t, none, some m)
      | none => none
  | none =>
    match searchChain id.name chain with
    | some (t, nd) => some (t, some nd, some start_module)
    | none =>
      match findTpdf start_module.typedefs id.name with
      | some t => some (t, none, some start_module)
      | none =>
        if id.name ∈ builtinTypes then some (⟨id.name, id.name⟩, none, none) else none

/-- The prefix string stored in a slot of the module: the module's own prefix slot
(`none`) or the import slot of the given index. -/
def slotVal (m : LyspModule) (loc : Option Nat) : String :=
  match loc with
  | none => m.selfPfx
  | some i => ((m.imports.get? i).map Prod.fst).getD ""

/-- A slot designator is valid for the module: the self-prefix slot or an
existing import slot. -/
def ValidSlot (m : LyspModule) (loc : Option Nat) : Prop :=
  loc = none ∨ ∃ i, loc = some i ∧ i < m.imports.length

/-- Modelled from the spec: `lysp_check_prefix` (header line 61) — scan the module's
already-accepted prefixes (self-prefix and import prefixes) for a collision with the
newly added prefix value; the value is identified by its slot so that comparing the
candidate against its own not-yet-inserted slot is not a collision. -/
def lysp_check_prefix (m : LyspModule) (loc : Option Nat) : LY_ERR :=
  let v := slotVal m loc
  let selfHit := loc.isSome && (m.selfPfx == v)
  let impHit := (List.range m.imports.length).any
    (fun j => !((some j : Option Nat) == loc) && (slotVal m (some j) == v))
  if selfHit || impHit then LY_EEXIST else LY_SUCCESS

/-- The transient per-parse parser context of the header (line 44): the module under
construction, the pending set of nodes owning local typedefs still to be
collision-checked, and the diagnostic line counter. -/
structure LyParserCtx where
  mod : LyspModule
  tpdfs_nodes : List PNode
  line : Nat

/-- The names that appear more than once in a list, each reported once. -/
def dupsIn (ns : List String) : List String :=
  ns.dedup.filter (fun n => 1 < ns.count n)

/-- The names of the local typedefs of a node (empty for kinds without the slot). -/
def nodeLocalTpdfNames (nd : PNode) : List String :=
  ((lysp_node_typedefs nd).getD []).map LyspTpdf.name

/-- The collision reports of `lysp_check_typedefs`: scope (none for the module top
level, the pending-set index for a node scope) and the duplicated typedef name. -/
def typedefCollisions (pctx : LyParserCtx) : List (Option Nat × String) :=
  (dupsIn (pctx.mod.typedefs.map LyspTpdf.name)).map (fun n => ((none : Option Nat), n))
  ++ (pctx.tpdfs_nodes.enum.map
      (fun p => (dupsIn (nodeLocalTpdfNames p.2)).map (fun n => (some p.1, n)))).flatten

/-- Modelled from the spec: `lysp_check_typedefs` (header line 80) — after the module
tree is parsed, every same-scope typedef name collision across the pending typedef
set and the module top level is collected and reported; the check succeeds exactly
when no collision exists.  Same names in different scopes are not collisions. -/
def lysp_check_typedefs (pctx : LyParserCtx) : LY_ERR × List (Option Nat × String) :=
  let reports := typedefCollisions pctx
  (if reports.isEmpty then LY_SUCCESS else LY_EEXIST, reports)

/-- A module object as registered in the shared context: name, revision and the
implemented flag. -/
structure LysModule where
  name : String
  revision : String
  implemented : Bool
deriving DecidableEq, Repr, Inhabited

/-- The shared context: the registered modules and, per (sub)module name, the newest
revision seen so far (the latest-revision bookkeeping). -/
structure LyCtx where
  modules : List LysModule
  latest : List (String × String)
deriving DecidableEq, Repr, Inhabited

/-- Modelled from the spec: `lys_module_implement` (header line 289) — making a module
implemented is a simple switch with no collision check; the caller must have checked
invariant I1 before. -/
def lys_module_implement (m : LysModule) : LysModule :=
  { m with implemented := true }

/-- Invariant I1 of the spec: within one context, at most one revision of a given
module name is implemented at any time. -/
def I1 (ctx : LyCtx) : Prop :=
  ∀ m1 ∈ ctx.modules, ∀ m2 ∈ ctx.modules,
    m1.name = m2.name → m1.implemented = true → m2.implemented = true →
      m1.revision = m2.revision

/-- A different revision of the same module name is already implemented in the
context (the I1 collision test of the loading path). -/
def implConflict (ctx : LyCtx) (name rev : String) : Bool :=
  ctx.modules.any (fun m => m.name == name && m.implemented && m.revision != rev)

/-- Find a registered module by name and revision. -/
def findMod (ctx : LyCtx) (name rev : String) : Option LysModule :=
  ctx.modules.find? (fun m => m.name == name && m.revision == rev)

/-- Flip the implemented flag of the registered (name, revision) entry through
`lys_module_implement`. -/
def markImplemented (ctx : LyCtx) (name rev : String) : LyCtx :=
  { ctx with
    modules := ctx.modules.map
        (fun m => if m.name == name && m.revision == rev then lys_module_implement m else m) }

/-- Update the latest-revision bookkeeping with a newly seen revision of a name. -/
def updateLatest (tbl : List (String × String)) (name rev : String) : List (String × String) :=
  match tbl.lookup name with
  | none => (name, rev) :: tbl
  | some d =>
    if strLtB d.data rev.data then
      tbl.map (fun p => if p.1 == name then (p.1, rev) else p)
    else tbl

/-- The newest among the revisions of `name` available in the fetch environment or
already loaded, for a revision-less load request. -/
def resolveRevision (env : List (String × String)) (ctx : LyCtx) (name : String) :
    Option String :=
  match (env.filter (fun p => p.1 == name)).map Prod.snd
      ++ (ctx.modules.filter (fun m => m.name == name)).map LysModule.revision with
  | [] => none
  | c :: cs => some (cs.foldl (fun a b => if strLtB a.data b.data then b else a) c)

/-- Modelled from the spec: `lysp_load_module` (header line 113) — reuse the module if
the requested (name, revision) is already in the context, otherwise fetch and
register it; a revision-less request resolves to the newest available revision; if
the implement flag is set and a different revision of the name is already
implemented (invariant I1), the call fails and the context is left unchanged. -/
def lysp_load_module (env : List (String × String)) (ctx : LyCtx) (name : String)
    (revision : Option String) (implement : Bool) : LY_ERR × LyCtx × Option LysModule :=
  match (match revision with | some r => some r | none => resolveRevision env ctx name) with
  | none => (LY_ENOTFOUND, ctx, none)
  | some rev =>
    if implement && implConflict ctx name rev then (LY_EDENIED, ctx, none)
    else
      match findMod ctx name rev with
      | some m =>
        if implement then
          (LY_SUCCESS, markImplemented ctx name rev, some (lys_module_implement m))
        else (LY_SUCCESS, ctx, some m)
      | none =>
        if env.contains (name, rev) then
          (LY_SUCCESS,
           { modules := { name := name, revision := rev, implemented := implement } :: ctx.modules,
             latest := updateLatest ctx.latest name rev },
           some { name := name, revision := rev, implemented := implement })
        else (LY_ENOTFOUND, ctx, none)

/-- A load request: module name, optional revision, implement flag. -/
structure LoadOp where
  name : String
  revision : Option String
  implement : Bool
deriving DecidableEq, Repr

/-- Run a sequence of load requests against a context; each call hands the context
it returns (unchanged on failure) to the next. -/
def runOps (env : List (String × String)) (ctx : LyCtx) : List LoadOp → LyCtx
  | [] => ctx
  | op :: ops => runOps env (lysp_load_module env ctx op.name op.revision op.implement).2.1 ops

/-- The result the external parser hands to the load pipeline: the parsed module,
the pending typedef-node set accumulated while parsing, and the revision list. -/
structure ParsedSchema where
  mod : LyspModule
  tpdfs_nodes : List PNode
  revisions : List LyspRevision

/-- Every revision date of the parsed schema passes `lysp_check_date`. -/
def revisionDatesOk (p : ParsedSchema) : Bool :=
  p.revisions.all (fun r => lysp_check_date r.date r.date.length "revision" == LY_SUCCESS)

/-- Every import slot of the parsed module passes `lysp_check_prefix`. -/
def prefixesOk (p : ParsedSchema) : Bool :=
  (List.range p.mod.imports.length).all
    (fun i => lysp_check_prefix p.mod (some i) == LY_SUCCESS)

/-- The date of the newest revision of the parsed schema (empty for no revisions),
obtained through `lysp_sort_revisions`. -/
def newestRevision (p : ParsedSchema) : String :=
  match lysp_sort_revisions p.revisions with
  | [] => ""
  | r :: _ => r.date

/-- Modelled from the spec: `lys_parse_mem_` (header line 218) — the shared
parse→validate→register pipeline of the three entry points.  The external parser's
outcome is taken as input (the grammar is out of scope); then the semantic
validators run (revision dates, typedef collisions, prefix collisions), then the
caller's custom check, then the implement policy (invariant I1); registration into
the context is the last step.  Every failure returns the context unchanged with no
module.  With a main parser context given, a submodule is parsed: it is not added
into the context's module registry, but the latest-revision bookkeeping is updated
exactly as for a module. -/
def lys_parse_mem_ (ctx : LyCtx) (parse_result : Except LY_ERR ParsedSchema)
    (implement : Bool) (main_ctx : Option LyParserCtx)
    (custom_check : Option (ParsedSchema → LY_ERR)) : LyCtx × Option LysModule :=
  match parse_result with
  | .error _ => (ctx, none)
  | .ok p =>
    if !revisionDatesOk p then (ctx, none)
    else if (lysp_check_typedefs { mod := p.mod, tpdfs_nodes := p.tpdfs_nodes, line := 0 }).1
        ≠ LY_SUCCESS then (ctx, none)
    else if !prefixesOk p then (ctx, none)
    else if (match custom_check with
             | some f => f p != LY_SUCCESS
             | none => false : Bool) then (ctx, none)
    else
      let rev := newestRevision p
      match main_ctx with
      | some _ =>
        ({ ctx with latest := updateLatest ctx.latest p.mod.name rev },
         some { name := p.mod.name, revision := rev, implemented := false })
      | none =>
        if implement && implConflict ctx p.mod.name rev then (ctx, none)
        else
          ({ modules := { name := p.mod.name, revision := rev, implemented := implement }
               :: ctx.modules,
             latest := updateLatest ctx.latest p.mod.name rev },
           some { name := p.mod.name, revision := rev, implemented := implement })

/-- Modelled from the spec: `lys_parse_fd_` (header line 240) — differs from
`lys_parse_mem_` only in how the raw source is obtained (reading the file
descriptor, abstracted as the parse outcome of those bytes); it funnels into the
same pipeline. -/
def lys_parse_fd_ (ctx : LyCtx) (fd_parse_result : Except LY_ERR ParsedSchema)
    (implement : Bool) (main_ctx : Option LyParserCtx)
    (custom_check : Option (ParsedSchema → LY_ERR)) : LyCtx × Option LysModule :=
  lys_parse_mem_ ctx fd_parse_result implement main_ctx custom_check

/-- Modelled from the spec: `lys_parse_path_` (header line 263) — differs from
`lys_parse_mem_` only in how the raw source is obtained (reading the file at the
path, abstracted as the parse outcome of those bytes); it funnels into the same
pipeline. -/
def lys_parse_path_ (ctx : LyCtx) (path_parse_result : Except LY_ERR ParsedSchema)
    (implement : Bool) (main_ctx : Option LyParserCtx)
    (custom_check : Option (ParsedSchema → LY_ERR)) : LyCtx × Option LysModule :=
  lys_parse_mem_ ctx path_parse_result implement main_ctx custom_check

/-- Failure modes of submodule loading. -/
inductive LoadErr where
  | cycle
  | notfound
  | nofuel
deriving DecidableEq, Repr

/-- A loaded submodule: its name and its loaded includes. -/
inductive Submod where
  | mk (name : String) (includes : List Submod)

/-- Name of a loaded submodule. -/
def Submod.name : Submod → String
  | .mk n _ => n

/-- The fetch environment for submodules: each submodule name maps to the names its
source includes. -/
abbrev SubEnv := List (String × List String)

/-- Load a list of includes with the given per-name loader, failing on the first
failure. -/
def loadListWith (f : String → Except LoadErr Submod) : List String → Except LoadErr (List Submod)
  | [] => .ok []
  | t :: ts =>
    match f t with
    | .error e => .error e
    | .ok s =>
      match loadListWith f ts with
      | .error e => .error e
      | .ok rest => .ok (s :: rest)

/-- Modelled from the spec: the recursive core of `lysp_load_submodule` — load the
named submodule, recursing into its own includes; `stack` holds the names of the
owning module and of every (sub)module whose load is in progress, and meeting a
stacked name again is the inclusion cycle error.  The fuel only bounds the
recursion depth; the wrapper passes enough for any acyclic environment. -/
def lysp_load_submodule_rec (env : SubEnv) : Nat → List String → String → Except LoadErr Submod
  | 0, _, _ => .error .nofuel
  | fuel + 1, stack, name =>
    if name ∈ stack then .error .cycle
    else
      match env.lookup name with
      | none => .error .notfound
      | some incs =>
        match loadListWith (fun t => lysp_load_submodule_rec env fuel (name :: stack) t) incs with
        | .error e => .error e
        | .ok subs => .ok (Submod.mk name subs)

/-- Modelled from the spec: `lysp_load_submodule` (header line 124) — parse the
submodule named by the include entry of the owning module, recursing through its
own includes, with the cycle guard rejecting a submodule that directly or
transitively includes itself or its own owning module. -/
def lysp_load_submodule (env : SubEnv) (modName incName : String) : Except LoadErr Submod :=
  lysp_load_submodule_rec env (env.length + 1) [modName] incName

/-- Load every include of a module, failing on the first failing include. -/
def loadIncludes (env : SubEnv) (modName : String) : List String → Except LoadErr (List Submod)
  | [] => .ok []
  | t :: ts =>
    match lysp_load_submodule env modName t with
    | .error e => .error e
    | .ok s =>
      match loadIncludes env modName ts with
      | .error e => .error e
      | .ok rest => .ok (s :: rest)

/-- Modelled from the spec: the module-level load step around submodule inclusion —
all includes of the module are loaded first; only when every include loaded does
the module get registered into the context, so a failing include (for example an
inclusion cycle) leaves the context unchanged. -/
def loadModuleWithSubs (env : SubEnv) (ctx : LyCtx) (modName rev : String)
    (incs : List String) (implement : Bool) : LY_ERR × LyCtx :=
  match loadIncludes env modName incs with
  | .error _ => (LY_EVALID, ctx)
  | .ok _ =>
    (LY_SUCCESS,
     { modules := { name := modName, revision := rev, implemented := implement } :: ctx.modules,
       latest := updateLatest ctx.latest modName rev })

/-- One inclusion edge of the environment: `a`'s source includes `b`. -/
def IncEdge (env : SubEnv) (a b : String) : Prop :=
  ∃ incs, env.lookup a = some incs ∧ b ∈ incs

/-- Reflexive-transitive closure of the inclusion edges. -/
inductive IncReachRT (env : SubEnv) : String → String → Prop where
  | refl (a : String) : IncReachRT env a a
  | head {a b c : String} : IncEdge env a b → IncReachRT env b c → IncReachRT env a c

/-- `a` includes `b` directly or transitively (at least one edge). -/
def IncReaches (env : SubEnv) (a b : String) : Prop :=
  ∃ m, IncEdge env a m ∧ IncReachRT env m b

/-- Every include target named anywhere in the environment is itself defined in the
environment, and each name is defined once. -/
def EnvComplete (env : SubEnv) : Prop :=
  (∀ p ∈ env, ∀ t ∈ p.2, t ∈ env.map Prod.fst) ∧ (env.map Prod.fst).Nodup

/-- Witness module B: top-level typedef `x` and a distinct typedef `x` nested under
one of B's nodes. -/
def Bmod : LyspModule :=
  .mk "B" "b" [⟨"x", "uint8"⟩] [PNode.container "c" [⟨"x", "string"⟩] [] [] []] []

/-- Witness module A importing B under the prefix `b`, with a top-level typedef `t`. -/
def Amod : LyspModule :=
  .mk "A" "a" [⟨"t", "string"⟩] [] [("b", Bmod)]

/-- Witness node with a local typedef `t` that shadows A's top-level `t`. -/
def ndLocal : PNode := .container "c" [⟨"t", "uint8"⟩] [] [] []

/-- Witness module with two imports bound to the same prefix string. -/
def mImp : LyspModule := .mk "M" "m" [] [] [("p", Bmod), ("p", Bmod)]

/-- Witness revision list. -/
def revs0 : List LyspRevision :=
  [⟨"2019-01-01", ""⟩, ⟨"2021-02-03", ""⟩, ⟨"2020-05-05", ""⟩]

/-- Witness parser context with a same-scope top-level typedef collision. -/
def pctxDup : LyParserCtx :=
  { mod := .mk "m" "m" [⟨"t", "string"⟩, ⟨"t", "uint8"⟩] [] [],
    tpdfs_nodes := [ndLocal], line := 1 }

/-- Witness context holding one implemented module. -/
def ctx1 : LyCtx := ⟨[{ name := "m", revision := "2020-01-01", implemented := true }], []⟩

/-- Witness empty context. -/
def ctx0 : LyCtx := ⟨[], []⟩

/-- Witness parsed schema: a plain module `m` with one valid revision. -/
def schema0 : ParsedSchema :=
  { mod := .mk "m" "m" [] [] [], tpdfs_nodes := [], revisions := [⟨"2021-02-03", ""⟩] }

/-- Witness main parser context standing for the owning module of a submodule parse. -/
def pctx0 : LyParserCtx := { mod := .mk "main" "ma" [] [] [], tpdfs_nodes := [], line := 0 }

/-- Witness submodule environment with an inclusion cycle S → T → S. -/
def env0 : SubEnv := [("S", ["T"]), ("T", ["S"])]

/-- C4 counterexample: the claim says acceptance is exactly the 4-2-2 digit shape,
yet `"2021-02-30"` has that shape and is rejected (the spec's P6 rejects it), so the
shape-only reading of the acceptance condition is false. -/
theorem c4_shape_only_refuted :
    claimDateShape "2021-02-30" = true ∧
    lysp_check_date "2021-02-30" 10 "revision" ≠ LY_SUCCESS := by
  constructor
  · decide
  · decide

/-- C4 (amended): `lysp_check_date` accepts a date exactly when the length is the
expected 10 and the token has the shape 4 digits `-` 2 digits `-` 2 digits with
numeric digit positions, the expected separators, and a month/day combination that
exists in the calendar; in particular `"21-02-03"`, `"2021/02/03"` and
`"2021-02-30"` are rejected and `"2021-02-03"` is accepted. -/
theorem c4_date_check_amended :
    (∀ (date stmt : String) (n : Nat),
        lysp_check_date date n stmt = LY_SUCCESS ↔
          n = 10 ∧ date.length = 10 ∧ dateShapeChars date.data = true ∧
            dateCalendarOk date.data = true) ∧
    lysp_check_date "2021-02-03" 10 "revision" = LY_SUCCESS ∧
    lysp_check_date "2021-02-30" 10 "revision" = LY_EVALID ∧
    lysp_check_date "21-02-03" 8 "revision" = LY_EINVAL ∧
    lysp_check_date "2021/02/03" 10 "revision" = LY_EVALID := by
  refine ⟨?_, by decide, by decide, by decide, by decide⟩
  intro date stmt n
  constructor
  · intro h
    by_cases hn : n = 10
    · subst hn
      by_cases hl : date.length = 10
      · by_cases hs : dateShapeChars date.data
        · by_cases hc : dateCalendarOk date.data
          · exact ⟨rfl, hl, hs, hc⟩
          · exfalso; simp [lysp_check_date, hl, hs, hc] at h
        · exfalso; simp [lysp_check_date, hl, hs] at h
      · exfalso; simp [lysp_check_date, hl] at h
    · exfalso; simp [lysp_check_date, hn] at h
  · rintro ⟨rfl, hl, hs, hc⟩
    simp [lysp_check_date, hl, hs, hc]

/-- C9: each structural accessor is total over every node-kind variant — it returns
the variant's own slot exactly for the kinds owning that slot and an explicit none
for every other kind (a leaf has no children slot, a notification has no nested
notifications slot), never data of a wrong variant. -/
theorem c9_node_accessors_total :
    (∀ n : PNode,
        (lysp_node_typedefs n).isSome = hasTpdfSlot n.kind ∧
        (lysp_node_actions n).isSome = hasActionSlot n.kind ∧
        (lysp_node_notifs n).isSome = hasNotifSlot n.kind ∧
        (lysp_node_children n).isSome = hasChildSlot n.kind) ∧
    (∀ c : CNode, (lysc_node_children c).isSome = hasChildSlot c.kind) ∧
    (∀ name, lysp_node_children (.leaf name) = none) ∧
    (∀ name t ch, lysp_node_notifs (.notif name t ch) = none) ∧
    (∀ name t a f ch,
        lysp_node_typedefs (.container name t a f ch) = some t ∧
        lysp_node_actions (.container name t a f ch) = some a ∧
        lysp_node_notifs (.container name t a f ch) = some f ∧
        lysp_node_children (.container name t a f ch) = some ch) ∧
    (∀ name t a f ch,
        lysp_node_typedefs (.list name t a f ch) = some t ∧
        lysp_node_actions (.list name t a f ch) = some a ∧
        lysp_node_notifs (.list name t a f ch) = some f ∧
        lysp_node_children (.list name t a f ch) = some ch) ∧
    (∀ name t a f ch,
        lysp_node_typedefs (.grouping name t a f ch) = some t ∧
        lysp_node_actions (.grouping name t a f ch) = some a ∧
        lysp_node_notifs (.grouping name t a f ch) = some f ∧
        lysp_node_children (.grouping name t a f ch) = some ch) ∧
    (∀ name ch,
        lysp_node_children (.choice name ch) = some ch ∧
        lysp_node_children (.cas name ch) = some ch ∧
        lysp_node_children (.augment name ch) = some ch) ∧
    (∀ name t ch,
        lysp_node_typedefs (.notif name t ch) = some t ∧
        lysp_node_children (.notif name t ch) = some ch) ∧
    (∀ name t, lysp_node_typedefs (.action name t) = some t) := by
  refine ⟨?_, ?_, ?_, ?_, ?_, ?_, ?_, ?_, ?_, ?_⟩
  · intro n
    cases n <;>
      simp [lysp_node_typedefs, lysp_node_actions, lysp_node_notifs, lysp_node_children,
        PNode.kind, hasTpdfSlot, hasActionSlot, hasNotifSlot, hasChildSlot]
  · intro c
    cases c <;> simp [lysc_node_children, CNode.kind, hasChildSlot]
  · intro name; rfl
  · intro name t ch; rfl
  · intro name t a f ch; exact ⟨rfl, rfl, rfl, rfl⟩
  · intro name t a f ch; exact ⟨rfl, rfl, rfl, rfl⟩
  · intro name t a f ch; exact ⟨rfl, rfl, rfl, rfl⟩
  · intro name ch; exact ⟨rfl, rfl, rfl⟩
  · intro name t ch; exact ⟨rfl, rfl⟩
  · intro name t; rfl

theorem searchChain_eq_none {x : String} {chain : List PNode}
    (h : ∀ nd ∈ chain, findTpdf ((lysp_node_typedefs nd).getD []) x = none) :
    searchChain x chain = none := by
  induction chain with
  | nil => rfl
  | cons nd rest ih =>
    have hnd := h nd (List.mem_cons_self nd rest)
    simp only [searchChain, hnd]
    exact ih (fun nd' h' => h nd' (List.mem_cons_of_mem nd h'))

/-- C2: scope rules of `lysp_type_find` — a prefixed identifier is looked up only in
the top-level typedef list of the module the prefix resolves to (a miss there is a
miss, whatever typedefs are nested under that module's nodes), and an unprefixed
identifier is resolved along the ancestor chain nearest scope first, falling back to
the module's own top level only when no ancestor scope matches, so a node-local
typedef shadows a same-named top-level one. -/
theorem c2_type_find_scope :
    (∀ (p x : String) (chain : List PNode) (A B : LyspModule) (t : LyspTpdf),
        lysp_module_find_prefix A p = some B →
        findTpdf B.typedefs x = some t →
        lysp_type_find ⟨some p, x⟩ chain A = some (t, none, some B)) ∧
    (∀ (p x : String) (chain : List PNode) (A B : LyspModule),
        lysp_module_find_prefix A p = some B →
        findTpdf B.typedefs x = none →
        lysp_type_find ⟨some p, x⟩ chain A = none) ∧
    (∀ (x : String) (nd : PNode) (rest : List PNode) (A : LyspModule) (t : LyspTpdf),
        findTpdf ((lysp_node_typedefs nd).getD []) x = some t →
        lysp_type_find ⟨none, x⟩ (nd :: rest) A = some (t, some nd, some A)) ∧
    (∀ (x : String) (chain : List PNode) (A : LyspModule) (t : LyspTpdf),
        (∀ nd ∈ chain, findTpdf ((lysp_node_typedefs nd).getD []) x = none) →
        findTpdf A.typedefs x = some t →
        lysp_type_find ⟨none, x⟩ chain A = some (t, none, some A)) := by
  refine ⟨?_, ?_, ?_, ?_⟩
  · intro p x chain A B t h1 h2
    simp only [lysp_type_find, h1, h2]
  · intro p x chain A B h1 h2
    simp only [lysp_type_find, h1, h2]
  · intro x nd rest A t h
    simp only [lysp_type_find, searchChain, h]
  · intro x chain A t hchain htop
    simp only [lysp_type_find, searchChain_eq_none hchain, htop]

/-- Witness for C2: in the concrete modules, `b:x` from A resolves to B's top-level
`x` (not the `x` nested under B's node), and unprefixed `t` at a node with a local
`t` resolves to the local typedef, not A's top-level `t`. -/
theorem c2_type_find_scope_witness :
    ( lysp_module_find_prefix Amod "b" = some Bmod ∧
     findTpdf Bmod.typedefs "x" = some ⟨"x", "uint8"⟩ ∧
     findTpdf ((lysp_node_typedefs ndLocal).getD []) "t" = some ⟨"t", "uint8"⟩) ∧
    lysp_type_find ⟨some "b", "x"⟩ [] Amod = some (⟨"x", "uint8"⟩, none, some Bmod) ∧
    lysp_type_find ⟨none, "t"⟩ [ndLocal] Amod = some (⟨"t", "uint8"⟩, some ndLocal, some Amod) := by
  refine ⟨⟨rfl, rfl, rfl⟩, ?_, ?_⟩
  · exact c2_type_find_scope.1 "b" "x" [] Amod Bmod ⟨"x", "uint8"⟩ rfl rfl
  · exact c2_type_find_scope.2.2.1 "t" ndLocal [] Amod ⟨"t", "uint8"⟩ rfl

/-- C7: `lysp_check_prefix` reports the collision error exactly when some other slot
of the same module (the self-prefix slot or an accepted import slot) already holds
the candidate's prefix string — the candidate's own slot never collides with
itself.  Two imports bound to the same prefix string therefore fail, also when
they import the same module twice. -/
theorem c7_prefix_collision :
    ∀ (m : LyspModule) (loc : Option Nat), ValidSlot m loc →
      ( lysp_check_prefix m loc = LY_EEXIST ↔
        ∃ loc2, ValidSlot m loc2 ∧ loc2 ≠ loc ∧ slotVal m loc2 = slotVal m loc) := by
  intro m loc _hv
  have key : (loc.isSome && (m.selfPfx == slotVal m loc)
      || (List.range m.imports.length).any
        (fun j => !((some j : Option Nat) == loc) && (slotVal m (some j) == slotVal m loc))) = true
      ↔ ∃ loc2, ValidSlot m loc2 ∧ loc2 ≠ loc ∧ slotVal m loc2 = slotVal m loc := by
    simp only [Bool.or_eq_true, Bool.and_eq_true, List.any_eq_true, List.mem_range,
      beq_iff_eq, Bool.not_eq_true', beq_eq_false_iff_ne, Option.isSome_iff_exists]
    constructor
    · rintro (⟨⟨i, hi⟩, hself⟩ | ⟨j, hj, hne, hvj⟩)
      · refine ⟨none, Or.inl rfl, ?_, hself⟩
        rw [hi]; exact fun h => Option.noConfusion h
      · exact ⟨some j, Or.inr ⟨j, rfl, hj⟩, hne, hvj⟩
    · rintro ⟨loc2, hv2, hne, heq⟩
      cases loc2 with
      | none =>
        cases loc with
        | none => exact absurd rfl hne
        | some i => exact Or.inl ⟨⟨i, rfl⟩, heq⟩
      | some j =>
        rcases hv2 with h | ⟨j', hj', hlen⟩
        · exact Option.noConfusion h
        · obtain rfl : j = j' := Option.some.inj hj'
          exact Or.inr ⟨j, hlen, hne, heq⟩
  simp only [ lysp_check_prefix]
  by_cases hc : (loc.isSome && (m.selfPfx == slotVal m loc)
      || (List.range m.imports.length).any
        (fun j => !((some j : Option Nat) == loc) && (slotVal m (some j) == slotVal m loc))) = true
  · rw [if_pos hc]
    simp only [true_iff]
    exact key.mp hc
  · rw [if_neg hc]
    constructor
    · intro h; exact absurd h (by simp)
    · intro h; exact absurd (key.mpr h) hc

/-- Witness for C7: in the concrete module with two imports bound to prefix `p`,
checking the second import slot reports the collision error. -/
theorem c7_prefix_collision_witness :
    ValidSlot mImp (some 1) ∧ lysp_check_prefix mImp (some 1) = LY_EEXIST := by
  have hv : ValidSlot mImp (some 1) := Or.inr ⟨1, rfl, by decide⟩
  refine ⟨hv, ?_⟩
  exact (c7_prefix_collision mImp (some 1) hv).mpr
    ⟨some 0, Or.inr ⟨0, rfl, by decide⟩, by decide, rfl⟩

theorem parse_mem_frame (ctx : LyCtx) (pr : Except LY_ERR ParsedSchema) (implement : Bool)
    (mc : Option LyParserCtx) (cc : Option (ParsedSchema → LY_ERR))
    (h : (lys_parse_mem_ ctx pr implement mc cc).2 = none) :
    (lys_parse_mem_ ctx pr implement mc cc).1 = ctx := by
  cases pr with
  | error e => rfl
  | ok p =>
    by_cases h1 : revisionDatesOk p
    case neg => simp [lys_parse_mem_, h1]
    by_cases h2 : (lysp_check_typedefs { mod := p.mod, tpdfs_nodes := p.tpdfs_nodes, line := 0 }).1
        = LY_SUCCESS
    case neg => simp [lys_parse_mem_, h1, h2]
    by_cases h3 : prefixesOk p
    case neg => simp [lys_parse_mem_, h1, h2, h3]
    cases cc with
    | some f =>
      by_cases h4 : f p = LY_SUCCESS
      case neg => simp [lys_parse_mem_, h1, h2, h3, h4]
      cases mc with
      | some x => simp [lys_parse_mem_, h1, h2, h3, h4] at h
      | none =>
        by_cases h5 : (implement && implConflict ctx p.mod.name (newestRevision p)) = true
        · simp [lys_parse_mem_, h1, h2, h3, h4, h5]
        · simp [lys_parse_mem_, h1, h2, h3, h4, h5] at h
    | none =>
      cases mc with
      | some x => simp [lys_parse_mem_, h1, h2, h3] at h
      | none =>
        by_cases h5 : (implement && implConflict ctx p.mod.name (newestRevision p)) = true
        · simp [lys_parse_mem_, h1, h2, h3, h5]
        · simp [lys_parse_mem_, h1, h2, h3, h5] at h

/-- C3: atomic registration of the load pipeline — whenever any of the three parse
entry points fails (no module is produced), the shared context is exactly what it
was before the call; in particular a rejecting custom check aborts the pipeline
with the context untouched.  Registration is the last pipeline step. -/
theorem c3_parse_atomic :
    (∀ (ctx : LyCtx) (pr : Except LY_ERR ParsedSchema) (implement : Bool)
        (mc : Option LyParserCtx) (cc : Option (ParsedSchema → LY_ERR)),
        ( lys_parse_mem_ ctx pr implement mc cc).2 = none →
        ( lys_parse_mem_ ctx pr implement mc cc).1 = ctx) ∧
    (∀ (ctx : LyCtx) (pr : Except LY_ERR ParsedSchema) (implement : Bool)
        (mc : Option LyParserCtx) (cc : Option (ParsedSchema → LY_ERR)),
        ( lys_parse_fd_ ctx pr implement mc cc).2 = none →
        ( lys_parse_fd_ ctx pr implement mc cc).1 = ctx) ∧
    (∀ (ctx : LyCtx) (pr : Except LY_ERR ParsedSchema) (implement : Bool)
        (mc : Option LyParserCtx) (cc : Option (ParsedSchema → LY_ERR)),
        ( lys_parse_path_ ctx pr implement mc cc).2 = none →
        ( lys_parse_path_ ctx pr implement mc cc).1 = ctx) ∧
    (∀ (ctx : LyCtx) (p : ParsedSchema) (implement : Bool) (mc : Option LyParserCtx)
        (f : ParsedSchema → LY_ERR), f p ≠ LY_SUCCESS →
        lys_parse_mem_ ctx (.ok p) implement mc (some f) = (ctx, none)) := by
  refine ⟨parse_mem_frame, parse_mem_frame, parse_mem_frame, ?_⟩
  intro ctx p implement mc f hf
  by_cases h1 : revisionDatesOk p
  case neg => simp [lys_parse_mem_, h1]
  by_cases h2 : (lysp_check_typedefs { mod := p.mod, tpdfs_nodes := p.tpdfs_nodes, line := 0 }).1
      = LY_SUCCESS
  case neg => simp [lys_parse_mem_, h1, h2]
  by_cases h3 : prefixesOk p
  case neg => simp [lys_parse_mem_, h1, h2, h3]
  simp [lys_parse_mem_, h1, h2, h3, bne_iff_ne, hf]

/-- Witness for C3: a failing parse (syntax error from the external parser) returns
no module and an unchanged context. -/
theorem c3_parse_atomic_witness :
    (lys_parse_mem_ ctx0 (Except.error LY_EVALID) false none none).2 = none ∧
    (lys_parse_mem_ ctx0 (Except.error LY_EVALID) false none none).1 = ctx0 :=
  ⟨rfl, c3_parse_atomic.1 ctx0 (Except.error LY_EVALID) false none none rfl⟩

/-- C10: parsing a submodule through the internal entry points (main parser context
given) never adds an entry to the context's module registry, while the
latest-revision bookkeeping is updated by a successful parse exactly as in the
module case; a successful module parse registers exactly the returned module. -/
theorem c10_submodule_no_register :
    (∀ (ctx : LyCtx) (pr : Except LY_ERR ParsedSchema) (implement : Bool)
        (mcx : LyParserCtx) (cc : Option (ParsedSchema → LY_ERR)),
        ( lys_parse_mem_ ctx pr implement (some mcx) cc).1.modules = ctx.modules) ∧
    (∀ (ctx : LyCtx) (p : ParsedSchema) (implement : Bool) (mc : Option LyParserCtx)
        (cc : Option (ParsedSchema → LY_ERR)) (m : LysModule),
        ( lys_parse_mem_ ctx (.ok p) implement mc cc).2 = some m →
        ( lys_parse_mem_ ctx (.ok p) implement mc cc).1.latest
          = updateLatest ctx.latest p.mod.name (newestRevision p)) ∧
    (∀ (ctx : LyCtx) (p : ParsedSchema) (implement : Bool)
        (cc : Option (ParsedSchema → LY_ERR)) (m : LysModule),
        ( lys_parse_mem_ ctx (.ok p) implement none cc).2 = some m →
        ( lys_parse_mem_ ctx (.ok p) implement none cc).1.modules = m :: ctx.modules) := by
  refine ⟨?_, ?_, ?_⟩
  · intro ctx pr implement mcx cc
    cases pr with
    | error e => rfl
    | ok p =>
      by_cases h1 : revisionDatesOk p
      case neg => simp [lys_parse_mem_, h1]
      by_cases h2 : (lysp_check_typedefs { mod := p.mod, tpdfs_nodes := p.tpdfs_nodes, line := 0 }).1
          = LY_SUCCESS
      case neg => simp [lys_parse_mem_, h1, h2]
      by_cases h3 : prefixesOk p
      case neg => simp [lys_parse_mem_, h1, h2, h3]
      cases cc with
      | some f =>
        by_cases h4 : f p = LY_SUCCESS
        case neg => simp [lys_parse_mem_, h1, h2, h3, h4]
        simp [lys_parse_mem_, h1, h2, h3, h4]
      | none => simp [lys_parse_mem_, h1, h2, h3]
  · intro ctx p implement mc cc m h
    by_cases h1 : revisionDatesOk p
    case neg => simp [lys_parse_mem_, h1] at h
    by_cases h2 : (lysp_check_typedefs { mod := p.mod, tpdfs_nodes := p.tpdfs_nodes, line := 0 }).1
        = LY_SUCCESS
    case neg => simp [lys_parse_mem_, h1, h2] at h
    by_cases h3 : prefixesOk p
    case neg => simp [lys_parse_mem_, h1, h2, h3] at h
    cases cc with
    | some f =>
      by_cases h4 : f p = LY_SUCCESS
      case neg => simp [lys_parse_mem_, h1, h2, h3, h4] at h
      cases mc with
      | some x => simp [lys_parse_mem_, h1, h2, h3, h4]
      | none =>
        by_cases h5 : (implement && implConflict ctx p.mod.name (newestRevision p)) = true
        · simp [lys_parse_mem_, h1, h2, h3, h4, h5] at h
        · simp [lys_parse_mem_, h1, h2, h3, h4, h5]
    | none =>
      cases mc with
      | some x => simp [lys_parse_mem_, h1, h2, h3]
      | none =>
        by_cases h5 : (implement && implConflict ctx p.mod.name (newestRevision p)) = true
        · simp [lys_parse_mem_, h1, h2, h3, h5] at h
        · simp [lys_parse_mem_, h1, h2, h3, h5]
  · intro ctx p implement cc m h
    by_cases h1 : revisionDatesOk p
    case neg => simp [lys_parse_mem_, h1] at h
    by_cases h2 : (lysp_check_typedefs { mod := p.mod, tpdfs_nodes := p.tpdfs_nodes, line := 0 }).1
        = LY_SUCCESS
    case neg => simp [lys_parse_mem_, h1, h2] at h
    by_cases h3 : prefixesOk p
    case neg => simp [lys_parse_mem_, h1, h2, h3] at h
    cases cc with
    | some f =>
      by_cases h4 : f p = LY_SUCCESS
      case neg => simp [lys_parse_mem_, h1, h2, h3, h4] at h
      by_cases h5 : (implement && implConflict ctx p.mod.name (newestRevision p)) = true
      · simp [lys_parse_mem_, h1, h2, h3, h4, h5] at h
      · simp [lys_parse_mem_, h1, h2, h3, h4, h5] at h ⊢
        rw [← h]
    | none =>
      by_cases h5 : (implement && implConflict ctx p.mod.name (newestRevision p)) = true
      · simp [lys_parse_mem_, h1, h2, h3, h5] at h
      · simp [lys_parse_mem_, h1, h2, h3, h5] at h ⊢
        rw [← h]

/-- Witness for C10: parsing the concrete submodule succeeds, leaves the module
registry empty and updates the latest-revision bookkeeping. -/
theorem c10_submodule_no_register_witness :
    (lys_parse_mem_ ctx0 (.ok schema0) false (some pctx0) none).2
      = some { name := "m", revision := "2021-02-03", implemented := false } ∧
    (lys_parse_mem_ ctx0 (.ok schema0) false (some pctx0) none).1.modules = ctx0.modules ∧
    (lys_parse_mem_ ctx0 (.ok schema0) false (some pctx0) none).1.latest
      = updateLatest ctx0.latest schema0.mod.name (newestRevision schema0) := by
  refine ⟨by decide, ?_, ?_⟩
  · exact c10_submodule_no_register.1 ctx0 (.ok schema0) false pctx0 none
  · exact c10_submodule_no_register.2.1 ctx0 schema0 false (some pctx0) none
      { name := "m", revision := "2021-02-03", implemented := false } (by decide)

theorem strLtB_irrefl (l : List Char) : strLtB l l = false := by
  induction l with
  | nil => rfl
  | cons x xs ih => simp [strLtB, ih]

theorem strLtB_trans {a b c : List Char} (h1 : strLtB a b = true) (h2 : strLtB b c = true) :
    strLtB a c = true := by
  induction a generalizing b c with
  | nil =>
    cases b with
    | nil => simp [strLtB] at h1
    | cons y ys =>
      cases c with
      | nil => simp [strLtB] at h2
      | cons z zs => rfl
  | cons x xs ih =>
    cases b with
    | nil => simp [strLtB] at h1
    | cons y ys =>
      cases c with
      | nil => simp [strLtB] at h2
      | cons z zs =>
        simp only [strLtB] at h1 h2 ⊢
        rcases Nat.lt_trichotomy x.toNat y.toNat with hxy | hxy | hxy
        · rcases Nat.lt_trichotomy y.toNat z.toNat with hyz | hyz | hyz
          · have hxz : x.toNat < z.toNat := by omega
            simp [hxz]
          · have hxz : x.toNat < z.toNat := by omega
            simp [hxz]
          · exfalso
            have hn : ¬ y.toNat < z.toNat := by omega
            simp [hn, hyz] at h2
        · rcases Nat.lt_trichotomy y.toNat z.toNat with hyz | hyz | hyz
          · have hxz : x.toNat < z.toNat := by omega
            simp [hxz]
          · have h1' : strLtB xs ys = true := by
              have hn1 : ¬ x.toNat < y.toNat := by omega
              have hn2 : ¬ y.toNat < x.toNat := by omega
              simpa [hn1, hn2] using h1
            have h2' : strLtB ys zs = true := by
              have hn1 : ¬ y.toNat < z.toNat := by omega
              have hn2 : ¬ z.toNat < y.toNat := by omega
              simpa [hn1, hn2] using h2
            have hnxz : ¬ x.toNat < z.toNat := by omega
            have hnzx : ¬ z.toNat < x.toNat := by omega
            simp [hnxz, hnzx, ih h1' h2']
          · exfalso
            have hn : ¬ y.toNat < z.toNat := by omega
            simp [hn, hyz] at h2
        · exfalso
          have hn : ¬ x.toNat < y.toNat := by omega
          simp [hn, hxy] at h1

theorem strLtB_lt_of_lt_of_nlt {a b c : List Char} (h1 : strLtB a b = true)
    (h2 : strLtB c b = false) : strLtB a c = true := by
  induction a generalizing b c with
  | nil =>
    cases b with
    | nil => simp [strLtB] at h1
    | cons y ys =>
      cases c with
      | nil => simp [strLtB] at h2
      | cons z zs => rfl
  | cons x xs ih =>
    cases b with
    | nil => simp [strLtB] at h1
    | cons y ys =>
      cases c with
      | nil => simp [strLtB] at h2
      | cons z zs =>
        simp only [strLtB] at h1 h2 ⊢
        rcases Nat.lt_trichotomy z.toNat y.toNat with hzy | hzy | hzy
        · exfalso; simp [hzy] at h2
        · have hnzy : ¬ z.toNat < y.toNat := by omega
          have hnyz : ¬ y.toNat < z.toNat := by omega
          have h2' : strLtB zs ys = false := by simpa [hnzy, hnyz] using h2
          rcases Nat.lt_trichotomy x.toNat y.toNat with hxy | hxy | hxy
          · have hxz : x.toNat < z.toNat := by omega
            simp [hxz]
          · have h1' : strLtB xs ys = true := by
              have hn1 : ¬ x.toNat < y.toNat := by omega
              have hn2 : ¬ y.toNat < x.toNat := by omega
              simpa [hn1, hn2] using h1
            have hnxz : ¬ x.toNat < z.toNat := by omega
            have hnzx : ¬ z.toNat < x.toNat := by omega
            simp [hnxz, hnzx, ih h1' h2']
          · exfalso
            have hn : ¬ x.toNat < y.toNat := by omega
            simp [hn, hxy] at h1
        · rcases Nat.lt_trichotomy x.toNat y.toNat with hxy | hxy | hxy
          · have hxz : x.toNat < z.toNat := by omega
            simp [hxz]
          · have hxz : x.toNat < z.toNat := by omega
            simp [hxz]
          · exfalso
            have hn : ¬ x.toNat < y.toNat := by omega
            simp [hn, hxy] at h1

theorem extractNewest_max (b : LyspRevision) (l : List LyspRevision) :
    ∀ x ∈ b :: l, strLtB (extractNewest b l).1.date.data x.date.data = false := by
  induction l generalizing b with
  | nil =>
    intro x hx
    have hxb : x = b := by simpa using hx
    subst hxb
    simp [extractNewest, strLtB_irrefl]
  | cons r rs ih =>
    intro x hx
    by_cases hb : strLtB b.date.data r.date.data = true
    · rcases List.mem_cons.mp hx with rfl | hx'
      · have hmr := ih r r (List.mem_cons_self r rs)
        simp only [extractNewest, hb, if_true]
        cases hfx : strLtB (extractNewest r rs).1.date.data x.date.data with
        | false => rfl
        | true =>
          exfalso
          have htr := strLtB_trans hfx hb
          rw [hmr] at htr
          exact Bool.noConfusion htr
      · simp only [extractNewest, hb, if_true]
        exact ih r x hx'
    · have hbf : strLtB b.date.data r.date.data = false := by simpa using hb
      rcases List.mem_cons.mp hx with rfl | hx'
      · simp only [extractNewest, hbf, Bool.false_eq_true, if_false]
        exact ih x x (List.mem_cons_self x rs)
      · rcases List.mem_cons.mp hx' with rfl | hx2
        · simp only [extractNewest, hbf, Bool.false_eq_true, if_false]
          cases hfx : strLtB (extractNewest b rs).1.date.data x.date.data with
          | false => rfl
          | true =>
            exfalso
            have hlt := strLtB_lt_of_lt_of_nlt hfx hbf
            have hnb := ih b b (List.mem_cons_self b rs)
            rw [hnb] at hlt
            exact Bool.noConfusion hlt
        · simp only [extractNewest, hbf, Bool.false_eq_true, if_false]
          exact ih b x (List.mem_cons_of_mem b hx2)

theorem extractNewest_perm (b : LyspRevision) (l : List LyspRevision) :
    ((extractNewest b l).1 :: (extractNewest b l).2).Perm (b :: l) := by
  induction l generalizing b with
  | nil => simp [extractNewest]
  | cons r rs ih =>
    by_cases hb : strLtB b.date.data r.date.data = true
    · simp only [extractNewest, hb, if_true]
      exact (List.Perm.swap b (extractNewest r rs).1 (extractNewest r rs).2).trans
        ((ih r).cons b)
    · have hbf : strLtB b.date.data r.date.data = false := by simpa using hb
      simp only [extractNewest, hbf, Bool.false_eq_true, if_false]
      exact (List.Perm.swap r (extractNewest b rs).1 (extractNewest b rs).2).trans
        (((ih b).cons r).trans (List.Perm.swap b r rs))

/-- C5: after `lysp_sort_revisions` the first element's date is greater than or
equal to (never less than) every element's date, and the result is a permutation of
the input (nothing is deduplicated or dropped).  The relative order of the
non-first elements is whatever the deterministic selection walk produces — the
model is a pure function, so repeated runs on the same input give the identical
list. -/
theorem c5_sort_revisions_head (revs : List LyspRevision) (h : revs ≠ []) :
    (lysp_sort_revisions revs).Perm revs ∧
    ∀ x ∈ revs, strLtB ((lysp_sort_revisions revs).headI.date.data) x.date.data = false := by
  cases revs with
  | nil => exact absurd rfl h
  | cons r rs =>
    constructor
    · simpa [lysp_sort_revisions] using extractNewest_perm r rs
    · intro x hx
      simpa [lysp_sort_revisions, List.headI] using extractNewest_max r rs x hx

/-- Witness for C5: the concrete three-element revision list. -/
theorem c5_sort_revisions_head_witness :
    revs0 ≠ [] ∧
    ((lysp_sort_revisions revs0).Perm revs0 ∧
     ∀ x ∈ revs0, strLtB ((lysp_sort_revisions revs0).headI.date.data) x.date.data = false) :=
  ⟨by decide, c5_sort_revisions_head revs0 (by decide)⟩

theorem mem_dupsIn_iff (ns : List String) (n : String) : n ∈ dupsIn ns ↔ 1 < ns.count n := by
  unfold dupsIn
  rw [List.mem_filter]
  constructor
  · intro h
    simpa using h.2
  · intro h
    refine ⟨List.mem_dedup.mpr ?_, by simpa using h⟩
    exact List.count_pos_iff.mp (by omega)

theorem dupsIn_eq_nil_iff (ns : List String) : dupsIn ns = [] ↔ ns.Nodup := by
  constructor
  · intro h
    rw [List.nodup_iff_count_le_one]
    intro a
    by_contra hc
    have h1 : 1 < ns.count a := by omega
    have := (mem_dupsIn_iff ns a).mpr h1
    rw [h] at this
    exact absurd this (List.not_mem_nil a)
  · intro h
    rw [List.eq_nil_iff_forall_not_mem]
    intro n hn
    have h1 := (mem_dupsIn_iff ns n).mp hn
    have h2 := List.nodup_iff_count_le_one.mp h n
    omega

theorem mem_typedefCollisions_iff (pctx : LyParserCtx) (r1 : Option Nat) (r2 : String) :
    (r1, r2) ∈ typedefCollisions pctx ↔
      (r1 = none ∧ r2 ∈ dupsIn (pctx.mod.typedefs.map LyspTpdf.name)) ∨
      (∃ i nd, r1 = some i ∧ pctx.tpdfs_nodes[i]? = some nd ∧
        r2 ∈ dupsIn (nodeLocalTpdfNames nd)) := by
  unfold typedefCollisions
  constructor
  · intro h
    rcases List.mem_append.mp h with h | h
    · rcases List.mem_map.mp h with ⟨n, hn, heq⟩
      obtain ⟨h1, h2⟩ := (Prod.mk.injEq ..).mp heq
      exact Or.inl ⟨h1.symm, h2 ▸ hn⟩
    · rcases List.mem_flatten.mp h with ⟨L, hL, hrL⟩
      rcases List.mem_map.mp hL with ⟨p, hp, hfp⟩
      rcases List.mem_map.mp (hfp ▸ hrL) with ⟨n, hn, heq⟩
      refine Or.inr ⟨p.1, p.2, ?_, List.mem_enum_iff_getElem?.mp hp, ?_⟩
      · exact ((Prod.mk.injEq ..).mp heq).1.symm
      · exact ((Prod.mk.injEq ..).mp heq).2 ▸ hn
  · intro h
    rcases h with ⟨h1, h2⟩ | ⟨i, nd, h1, h2, h3⟩
    · subst h1
      exact List.mem_append.mpr (Or.inl (List.mem_map.mpr ⟨r2, h2, rfl⟩))
    · subst h1
      refine List.mem_append.mpr (Or.inr (List.mem_flatten.mpr ?_))
      refine ⟨(dupsIn (nodeLocalTpdfNames nd)).map (fun n => (some i, n)), ?_, ?_⟩
      · exact List.mem_map.mpr ⟨(i, nd), List.mem_enum_iff_getElem?.mpr h2, rfl⟩
      · exact List.mem_map.mpr ⟨r2, h3, rfl⟩

/-- C8: `lysp_check_typedefs` succeeds exactly when no two typedefs of the same
scope (module top level, or one node's local list) share a name; on failure the
report list contains an entry for every same-scope collision across the parser
context's pending typedef set (not only the first), and every reported entry is a
real same-scope collision — so same names in different scopes (shadowing) are
never reported. -/
theorem c8_typedef_collisions (pctx : LyParserCtx) :
    ((lysp_check_typedefs pctx).1 = LY_SUCCESS ↔
      (pctx.mod.typedefs.map LyspTpdf.name).Nodup ∧
      ∀ nd ∈ pctx.tpdfs_nodes, (nodeLocalTpdfNames nd).Nodup) ∧
    (∀ n : String, 1 < (pctx.mod.typedefs.map LyspTpdf.name).count n →
      ((none : Option Nat), n) ∈ (lysp_check_typedefs pctx).2) ∧
    (∀ (i : Nat) (nd : PNode) (n : String), pctx.tpdfs_nodes[i]? = some nd →
      1 < (nodeLocalTpdfNames nd).count n →
      (some i, n) ∈ (lysp_check_typedefs pctx).2) ∧
    (∀ r ∈ (lysp_check_typedefs pctx).2,
      (r.1 = none ∧ 1 < (pctx.mod.typedefs.map LyspTpdf.name).count r.2) ∨
      (∃ i nd, r.1 = some i ∧ pctx.tpdfs_nodes[i]? = some nd ∧
        1 < (nodeLocalTpdfNames nd).count r.2)) := by
  have hempty : typedefCollisions pctx = [] ↔
      ((pctx.mod.typedefs.map LyspTpdf.name).Nodup ∧
       ∀ nd ∈ pctx.tpdfs_nodes, (nodeLocalTpdfNames nd).Nodup) := by
    constructor
    · intro h
      constructor
      · rw [← dupsIn_eq_nil_iff, List.eq_nil_iff_forall_not_mem]
        intro n hn
        have hm : ((none : Option Nat), n) ∈ typedefCollisions pctx :=
          (mem_typedefCollisions_iff pctx none n).mpr (Or.inl ⟨rfl, hn⟩)
        rw [h] at hm
        exact absurd hm (List.not_mem_nil _)
      · intro nd hnd
        rw [← dupsIn_eq_nil_iff, List.eq_nil_iff_forall_not_mem]
        intro n hn
        rcases List.mem_iff_getElem?.mp hnd with ⟨i, hi⟩
        have hm : (some i, n) ∈ typedefCollisions pctx :=
          (mem_typedefCollisions_iff pctx (some i) n).mpr (Or.inr ⟨i, nd, rfl, hi, hn⟩)
        rw [h] at hm
        exact absurd hm (List.not_mem_nil _)
    · rintro ⟨h1, h2⟩
      rw [List.eq_nil_iff_forall_not_mem]
      rintro ⟨r1, r2⟩ hr
      rcases (mem_typedefCollisions_iff pctx r1 r2).mp hr with ⟨_, hd⟩ | ⟨i, nd, _, hi, hd⟩
      · rw [(dupsIn_eq_nil_iff _).mpr h1] at hd
        exact absurd hd (List.not_mem_nil _)
      · have hmem : nd ∈ pctx.tpdfs_nodes := List.mem_iff_getElem?.mpr ⟨i, hi⟩
        rw [(dupsIn_eq_nil_iff _).mpr (h2 nd hmem)] at hd
        exact absurd hd (List.not_mem_nil _)
  refine ⟨?_, ?_, ?_, ?_⟩
  · by_cases he : (typedefCollisions pctx).isEmpty
    · simp only [lysp_check_typedefs, he, if_true]
      simp only [true_iff]
      exact hempty.mp (List.isEmpty_iff.mp he)
    · simp only [lysp_check_typedefs, he, Bool.false_eq_true, if_false]
      constructor
      · intro hs
        exact absurd hs (by simp)
      · intro hrhs
        exact absurd (by rw [List.isEmpty_iff]; exact hempty.mpr hrhs) he
  · intro n hc
    exact (mem_typedefCollisions_iff pctx none n).mpr
      (Or.inl ⟨rfl, (mem_dupsIn_iff _ n).mpr hc⟩)
  · intro i nd n hi hc
    exact (mem_typedefCollisions_iff pctx (some i) n).mpr
      (Or.inr ⟨i, nd, rfl, hi, (mem_dupsIn_iff _ n).mpr hc⟩)
  · rintro ⟨r1, r2⟩ hr
    rcases (mem_typedefCollisions_iff pctx r1 r2).mp hr with ⟨h1, hd⟩ | ⟨i, nd, h1, hi, hd⟩
    · exact Or.inl ⟨h1, (mem_dupsIn_iff _ _).mp hd⟩
    · exact Or.inr ⟨i, nd, h1, hi, (mem_dupsIn_iff _ _).mp hd⟩

/-- Witness for C8: the concrete parser context with two top-level typedefs named
`t` (and a node-local `t` that only shadows) gets the top-level collision
reported. -/
theorem c8_typedef_collisions_witness :
    (1 < (pctxDup.mod.typedefs.map LyspTpdf.name).count "t") ∧
    ((none : Option Nat), "t") ∈ (lysp_check_typedefs pctxDup).2 :=
  ⟨by decide, (c8_typedef_collisions pctxDup).2.1 "t" (by decide)⟩

theorem implConflict_eq_false_iff (ctx : LyCtx) (name rev : String) :
    implConflict ctx name rev = false ↔
      ∀ m ∈ ctx.modules, m.name = name → m.implemented = true → m.revision = rev := by
  constructor
  · intro h m hm hn hi
    by_contra hne
    have ht : ctx.modules.any (fun m => m.name == name && m.implemented && m.revision != rev)
        = true :=
      List.any_eq_true.mpr ⟨m, hm, by simp [hn, hi, hne]⟩
    rw [implConflict] at h
    rw [h] at ht
    exact Bool.noConfusion ht
  · intro h
    rcases Bool.eq_false_or_eq_true (implConflict ctx name rev) with ht | hf
    · exfalso
      rcases List.any_eq_true.mp ht with ⟨m, hm, hp⟩
      simp only [Bool.and_eq_true, beq_iff_eq, bne_iff_ne] at hp
      exact hp.2 (h m hm hp.1.1 hp.1.2)
    · exact hf

theorem markImplemented_I1 {ctx : LyCtx} {name rev : String}
    (hconf : implConflict ctx name rev = false) (hI : I1 ctx) :
    I1 (markImplemented ctx name rev) := by
  have hnc := (implConflict_eq_false_iff ctx name rev).mp hconf
  have haux : ∀ a : LysModule,
      ((if a.name == name && a.revision == rev then lys_module_implement a else a).name = a.name ∧
       (if a.name == name && a.revision == rev then lys_module_implement a else a).revision
         = a.revision ∧
       ((if a.name == name && a.revision == rev then lys_module_implement a else a).implemented
          = true → a.implemented = true ∨ (a.name = name ∧ a.revision = rev))) := by
    intro a
    by_cases h : (a.name == name && a.revision == rev) = true
    · rw [if_pos h]
      simp only [Bool.and_eq_true, beq_iff_eq] at h
      exact ⟨rfl, rfl, fun _ => Or.inr h⟩
    · rw [if_neg h]
      exact ⟨rfl, rfl, fun himp => Or.inl himp⟩
  intro m1 hm1 m2 hm2 hname himp1 himp2
  rcases List.mem_map.mp hm1 with ⟨a1, ha1, hf1⟩
  rcases List.mem_map.mp hm2 with ⟨a2, ha2, hf2⟩
  obtain ⟨hn1, hr1, hi1⟩ := haux a1
  obtain ⟨hn2, hr2, hi2⟩ := haux a2
  rw [← hf1] at hname himp1 ⊢
  rw [← hf2] at hname himp2 ⊢
  rw [hn1, hn2] at hname
  rw [hr1, hr2]
  rcases hi1 himp1 with hA1 | ⟨hB1, hC1⟩
  · rcases hi2 himp2 with hA2 | ⟨hB2, hC2⟩
    · exact hI a1 ha1 a2 ha2 hname hA1 hA2
    · rw [hC2]
      exact hnc a1 ha1 (hname.trans hB2) hA1
  · rcases hi2 himp2 with hA2 | ⟨hB2, hC2⟩
    · rw [hC1]
      exact (hnc a2 ha2 (hname.symm.trans hB1) hA2).symm
    · rw [hC1, hC2]

theorem cons_I1 {ctx : LyCtx} {nm : LysModule} {tbl : List (String × String)} (hI : I1 ctx)
    (hok : nm.implemented = true →
      ∀ m ∈ ctx.modules, m.name = nm.name → m.implemented = true → m.revision = nm.revision) :
    I1 { modules := nm :: ctx.modules, latest := tbl } := by
  intro m1 hm1 m2 hm2 hname himp1 himp2
  rcases List.mem_cons.mp hm1 with rfl | hm1'
  · rcases List.mem_cons.mp hm2 with rfl | hm2'
    · rfl
    · exact (hok himp1 m2 hm2' hname.symm himp2).symm
  · rcases List.mem_cons.mp hm2 with rfl | hm2'
    · exact hok himp2 m1 hm1' hname himp1
    · exact hI m1 hm1' m2 hm2' hname himp1 himp2

theorem load_preserves_I1 (env : List (String × String)) (ctx : LyCtx) (name : String)
    (revision : Option String) (implement : Bool) (hI : I1 ctx) :
    I1 (lysp_load_module env ctx name revision implement).2.1 := by
  simp only [lysp_load_module]
  cases hr : (match revision with | some r => some r | none => resolveRevision env ctx name) with
  | none => exact hI
  | some rev =>
    by_cases hc : (implement && implConflict ctx name rev) = true
    · simp only [hc, if_true]
      exact hI
    · simp only [hc, Bool.false_eq_true, if_false]
      cases hf : findMod ctx name rev with
      | some m =>
        cases himpl : implement with
        | false => simp only [Bool.false_eq_true, if_false]; exact hI
        | true =>
          simp only [if_true]
          have hcf : implConflict ctx name rev = false := by
            rcases Bool.eq_false_or_eq_true (implConflict ctx name rev) with ht | hfl
            · exact absurd (by simp [himpl, ht]) hc
            · exact hfl
          exact markImplemented_I1 hcf hI
      | none =>
        by_cases he : env.contains (name, rev)
        · simp only [he, if_true]
          refine cons_I1 hI ?_
          intro himp m hm hn hi
          have himpl : implement = true := himp
          have hcf : implConflict ctx name rev = false := by
            rcases Bool.eq_false_or_eq_true (implConflict ctx name rev) with ht | hfl
            · exact absurd (by simp [himpl, ht]) hc
            · exact hfl
          exact (implConflict_eq_false_iff ctx name rev).mp hcf m hm hn hi
        · simp only [he, Bool.false_eq_true, if_false]
          exact hI

theorem runOps_I1 (env : List (String × String)) (ops : List LoadOp) :
    ∀ ctx : LyCtx, I1 ctx → I1 (runOps env ctx ops) := by
  induction ops with
  | nil => intro ctx hI; exact hI
  | cons op ops ih =>
    intro ctx hI
    exact ih _ (load_preserves_I1 env ctx op.name op.revision op.implement hI)

/-- C1: across any sequence of load+implement requests against one context,
invariant I1 is preserved (at most one revision of a module name is implemented);
a load request with the implement flag that targets a second, different revision of
an already-implemented name fails with a denied error and returns the context
exactly as it was; `lys_module_implement` itself is an unconditional switch with no
collision check, so I1 rests on the loading path having run the conflict test. -/
theorem c1_implement_uniqueness :
    (∀ (env : List (String × String)) (ctx : LyCtx) (ops : List LoadOp),
        I1 ctx → I1 (runOps env ctx ops)) ∧
    (∀ (env : List (String × String)) (ctx : LyCtx) (n r : String) (m : LysModule),
        m ∈ ctx.modules → m.name = n → m.implemented = true → m.revision ≠ r →
        lysp_load_module env ctx n (some r) true = (LY_EDENIED, ctx, none)) ∧
    (∀ m : LysModule,
        lys_module_implement m
          = { name := m.name, revision := m.revision, implemented := true }) := by
  refine ⟨?_, ?_, ?_⟩
  · intro env ctx ops hI
    exact runOps_I1 env ops ctx hI
  · intro env ctx n r m hm hn hi hne
    have hct : implConflict ctx n r = true :=
      List.any_eq_true.mpr ⟨m, hm, by simp [hn, hi, hne]⟩
    simp [lysp_load_module, hct]
  · intro m
    rfl

/-- Witness for C1: the concrete context already implementing revision 2020-01-01 of
module `m` denies a load of a different revision with the implement flag and is
left unchanged. -/
theorem c1_implement_uniqueness_witness :
    I1 ctx1 ∧
    ({ name := "m", revision := "2020-01-01", implemented := true } : LysModule) ∈ ctx1.modules ∧
    lysp_load_module [] ctx1 "m" (some "2021-01-01") true = (LY_EDENIED, ctx1, none) := by
  refine ⟨by unfold I1; decide, by decide, ?_⟩
  exact c1_implement_uniqueness.2.1 [] ctx1 "m" "2021-01-01"
    { name := "m", revision := "2020-01-01", implemented := true } (by decide) rfl rfl (by decide)

theorem lookup_some_mem {env : SubEnv} {a : String} {b : List String}
    (h : env.lookup a = some b) : (a, b) ∈ env := by
  induction env with
  | nil => simp [List.lookup] at h
  | cons p ps ih =>
    obtain ⟨k, v⟩ := p
    by_cases hk : (a == k) = true
    · have hv : v = b := by simpa [List.lookup, hk] using h
      have hka : a = k := by simpa using hk
      exact List.mem_cons.mpr (Or.inl (by rw [hka, hv]))
    · have h' : ps.lookup a = some b := by simpa [List.lookup, hk] using h
      exact List.mem_cons.mpr (Or.inr (ih h'))

theorem mem_keys_lookup {env : SubEnv} {a : String} (h : a ∈ env.map Prod.fst) :
    ∃ b, env.lookup a = some b := by
  induction env with
  | nil => simp at h
  | cons p ps ih =>
    obtain ⟨k, v⟩ := p
    by_cases hk : (a == k) = true
    · exact ⟨v, by simp [List.lookup, hk]⟩
    · have h' : a ∈ ps.map Prod.fst := by
        rcases List.mem_cons.mp h with he | h'
        · exfalso
          exact hk (by simp [he])
        · exact h'
      rcases ih h' with ⟨b, hb⟩
      exact ⟨b, by simp [List.lookup, hk, hb]⟩

theorem filter_not_mem_cons_lt {l : List String} {stack : List String} {name : String}
    (hmem : name ∈ l) (hnot : name ∉ stack) :
    (l.filter (fun k => decide (k ∉ name :: stack))).length
      < (l.filter (fun k => decide (k ∉ stack))).length := by
  induction l with
  | nil => simp at hmem
  | cons a l ih =>
    by_cases ha : a = name
    · subst ha
      have h1 : (decide (a ∉ a :: stack)) = false := by simp
      have h2 : (decide (a ∉ stack)) = true := by simpa using hnot
      have hmono : (l.filter (fun k => decide (k ∉ a :: stack))).length
          ≤ (l.filter (fun k => decide (k ∉ stack))).length := by
        apply List.Sublist.length_le
        apply List.monotone_filter_right
        intro x hx
        simp only [decide_eq_true_eq] at hx ⊢
        exact fun hxs => hx (List.mem_cons_of_mem _ hxs)
      simp only [List.filter_cons, h1, h2, if_false, if_true, Bool.false_eq_true,
        List.length_cons]
      omega
    · have hmem' : name ∈ l := by
        rcases List.mem_cons.mp hmem with he | h'
        · exact absurd he.symm ha
        · exact h'
      by_cases hs : a ∈ stack
      · have h1 : (decide (a ∉ name :: stack)) = false := by
          simp [List.mem_cons, hs]
        have h2 : (decide (a ∉ stack)) = false := by simp [hs]
        simp only [List.filter_cons, h1, h2, Bool.false_eq_true, if_false]
        exact ih hmem'
      · have h1 : (decide (a ∉ name :: stack)) = true := by
          simp [List.mem_cons, hs, ha]
        have h2 : (decide (a ∉ stack)) = true := by simp [hs]
        simp only [List.filter_cons, h1, h2, if_true, List.length_cons]
        have := ih hmem'
        omega

theorem loadListWith_ok_forall {f : String → Except LoadErr Submod} {ts : List String}
    {ss : List Submod} (h : loadListWith f ts = .ok ss) :
    ∀ t ∈ ts, ∃ st, f t = .ok st := by
  induction ts generalizing ss with
  | nil => intro t ht; simp at ht
  | cons t' ts ih =>
    intro t ht
    rw [loadListWith] at h
    cases hft : f t' with
    | error e => rw [hft] at h; simp at h
    | ok s' =>
      rw [hft] at h
      cases hrest : loadListWith f ts with
      | error e => rw [hrest] at h; simp at h
      | ok rest =>
        rcases List.mem_cons.mp ht with rfl | ht'
        · exact ⟨s', hft⟩
        · exact ih hrest t ht'

theorem loadListWith_ok_or_cycle {f : String → Except LoadErr Submod} {ts : List String}
    (h : ∀ t ∈ ts, (∃ s, f t = .ok s) ∨ f t = .error .cycle) :
    (∃ ss, loadListWith f ts = .ok ss) ∨ loadListWith f ts = .error .cycle := by
  induction ts with
  | nil => exact Or.inl ⟨[], rfl⟩
  | cons t ts ih =>
    rcases h t (List.mem_cons_self t ts) with ⟨s, hs⟩ | hcyc
    · rcases ih (fun t' ht' => h t' (List.mem_cons_of_mem _ ht')) with ⟨ss, hss⟩ | hcc
      · exact Or.inl ⟨s :: ss, by rw [loadListWith, hs, hss]⟩
      · exact Or.inr (by rw [loadListWith, hs, hcc])
    · exact Or.inr (by rw [loadListWith, hcyc])

theorem rec_ok_inv {env : SubEnv} {fuel : Nat} {stack : List String} {name : String}
    {s : Submod} (h : lysp_load_submodule_rec env (fuel + 1) stack name = .ok s) :
    name ∉ stack ∧ ∃ incs, env.lookup name = some incs ∧
      ∀ t ∈ incs, ∃ st, lysp_load_submodule_rec env fuel (name :: stack) t = .ok st := by
  rw [lysp_load_submodule_rec] at h
  by_cases hst : name ∈ stack
  · rw [if_pos hst] at h
    simp at h
  · rw [if_neg hst] at h
    cases hl : env.lookup name with
    | none => rw [hl] at h; simp at h
    | some incs =>
      rw [hl] at h
      have h' : (match loadListWith (fun t => lysp_load_submodule_rec env fuel (name :: stack) t)
            incs with
          | Except.error e => Except.error e
          | Except.ok subs => Except.ok (Submod.mk name subs)) = Except.ok s := h
      cases hLL : loadListWith (fun t => lysp_load_submodule_rec env fuel (name :: stack) t) incs
        with
      | error e => rw [hLL] at h'; simp at h'
      | ok subs =>
        exact ⟨hst, incs, rfl, loadListWith_ok_forall hLL⟩

theorem rec_ok_not_reach {env : SubEnv} :
    ∀ (fuel : Nat) (stack : List String) (name : String) (s : Submod) (y : String),
      lysp_load_submodule_rec env fuel stack name = .ok s →
      IncReachRT env name y → y ∉ stack := by
  intro fuel
  induction fuel with
  | zero =>
    intro stack name s y h
    simp [lysp_load_submodule_rec] at h
  | succ fuel ih =>
    intro stack name s y h hreach
    obtain ⟨hst, incs, hl, hall⟩ := rec_ok_inv h
    cases hreach with
    | refl => exact hst
    | head hedge hrt =>
      rcases hedge with ⟨incs', hl', hb⟩
      rw [hl] at hl'
      obtain rfl := Option.some.inj hl'
      rcases hall _ hb with ⟨sb, hsb⟩
      have hnot := ih (name :: stack) _ sb y hsb hrt
      exact fun hy => hnot (List.mem_cons_of_mem _ hy)

theorem rec_ok_or_cycle {env : SubEnv} (hc : EnvComplete env) :
    ∀ (fuel : Nat) (stack : List String) (name : String),
      name ∈ env.map Prod.fst →
      ((env.map Prod.fst).filter (fun k => decide (k ∉ stack))).length < fuel →
      (∃ s, lysp_load_submodule_rec env fuel stack name = .ok s) ∨
        lysp_load_submodule_rec env fuel stack name = .error .cycle := by
  intro fuel
  induction fuel with
  | zero =>
    intro stack name _ hlt
    exact absurd hlt (Nat.not_lt_zero _)
  | succ fuel ih =>
    intro stack name hkey hlt
    by_cases hst : name ∈ stack
    · right
      rw [lysp_load_submodule_rec, if_pos hst]
    · rcases mem_keys_lookup hkey with ⟨incs, hl⟩
      have hmem_pair : (name, incs) ∈ env := lookup_some_mem hl
      have hsub : ∀ t ∈ incs,
          (∃ s, lysp_load_submodule_rec env fuel (name :: stack) t = .ok s) ∨
            lysp_load_submodule_rec env fuel (name :: stack) t = .error .cycle := by
        intro t ht
        have htk : t ∈ env.map Prod.fst := hc.1 (name, incs) hmem_pair t ht
        have hdec := filter_not_mem_cons_lt (l := env.map Prod.fst) hkey hst
        exact ih (name :: stack) t htk (by omega)
      rcases loadListWith_ok_or_cycle hsub with ⟨ss, hss⟩ | hcc
      · left
        refine ⟨Submod.mk name ss, ?_⟩
        rw [lysp_load_submodule_rec, if_neg hst, hl]
        have hred : (match loadListWith
              (fun t => lysp_load_submodule_rec env fuel (name :: stack) t) incs with
            | Except.error e => Except.error e
            | Except.ok subs => Except.ok (Submod.mk name subs)) = Except.ok (Submod.mk name ss) := by
          rw [hss]
        exact hred
      · right
        rw [lysp_load_submodule_rec, if_neg hst, hl]
        have hred : (match loadListWith
              (fun t => lysp_load_submodule_rec env fuel (name :: stack) t) incs with
            | Except.error e => Except.error e
            | Except.ok subs => Except.ok (Submod.mk name subs))
            = (Except.error LoadErr.cycle : Except LoadErr Submod) := by
          rw [hcc]
        exact hred

theorem loadIncludes_error_of_mem {env : SubEnv} {M S : String} {incs : List String}
    (hS : S ∈ incs) (hcyc : lysp_load_submodule env M S = .error .cycle) :
    ∃ e, loadIncludes env M incs = .error e := by
  induction incs with
  | nil => simp at hS
  | cons t ts ih =>
    rcases List.mem_cons.mp hS with rfl | hS'
    · exact ⟨.cycle, by rw [loadIncludes, hcyc]⟩
    · cases ht : lysp_load_submodule env M t with
      | error e => exact ⟨e, by rw [loadIncludes, ht]⟩
      | ok s =>
        rcases ih hS' with ⟨e, he⟩
        exact ⟨e, by rw [loadIncludes, ht, he]⟩

/-- C6: a submodule that directly or transitively includes itself or its own owning
module is rejected by the cycle guard of `lysp_load_submodule` (in a complete fetch
environment the load result is exactly the cycle error), and a module whose include
list contains such a submodule is not registered — the context after the failing
module load is exactly the context before it. -/
theorem c6_submodule_cycle :
    ∀ (env : SubEnv) (M S : String), EnvComplete env → S ∈ env.map Prod.fst →
      (IncReaches env S S ∨ IncReaches env S M) →
      lysp_load_submodule env M S = .error .cycle ∧
      (∀ (ctx : LyCtx) (rev : String) (incs : List String) (implement : Bool),
        S ∈ incs →
        loadModuleWithSubs env ctx M rev incs implement = (LY_EVALID, ctx)) := by
  intro env M S hc hkey hreach
  have hcyc : lysp_load_submodule env M S = .error .cycle := by
    have hlt : ((env.map Prod.fst).filter (fun k => decide (k ∉ [M]))).length
        < env.length + 1 := by
      have h1 : ((env.map Prod.fst).filter (fun k => decide (k ∉ [M]))).length
          ≤ (env.map Prod.fst).length := List.length_filter_le _ _
      have h2 : (env.map Prod.fst).length = env.length := List.length_map _ _
      omega
    rcases rec_ok_or_cycle hc (env.length + 1) [M] S hkey hlt with ⟨s, hs⟩ | hcy
    · exfalso
      obtain ⟨hst, incs, hl, hall⟩ := rec_ok_inv hs
      rcases hreach with ⟨b, hedge, hrt⟩ | ⟨b, hedge, hrt⟩
      · rcases hedge with ⟨incs', hl', hb⟩
        rw [hl] at hl'
        obtain rfl := Option.some.inj hl'
        rcases hall _ hb with ⟨sb, hsb⟩
        have hnot := rec_ok_not_reach env.length (S :: [M]) _ sb S hsb hrt
        exact hnot (List.mem_cons_self _ _)
      · rcases hedge with ⟨incs', hl', hb⟩
        rw [hl] at hl'
        obtain rfl := Option.some.inj hl'
        rcases hall _ hb with ⟨sb, hsb⟩
        have hnot := rec_ok_not_reach env.length (S :: [M]) _ sb M hsb hrt
        exact hnot (List.mem_cons_of_mem _ (List.mem_cons_self _ _))
    · exact hcy
  refine ⟨hcyc, ?_⟩
  intro ctx rev incs implement hS
  rcases loadIncludes_error_of_mem hS hcyc with ⟨e, he⟩
  rw [loadModuleWithSubs, he]

/-- Witness for C6: in the concrete environment where S includes T and T includes S,
loading S as a submodule of the module M reports the cycle error, and loading M with
include list [S] leaves the context unchanged. -/
theorem c6_submodule_cycle_witness :
    (EnvComplete env0 ∧ "S" ∈ env0.map Prod.fst) ∧
    lysp_load_submodule env0 "M" "S" = .error .cycle ∧
    loadModuleWithSubs env0 ctx0 "M" "2021-02-03" ["S"] true = (LY_EVALID, ctx0) := by
  have hc : EnvComplete env0 := by
    constructor
    · decide
    · decide
  have hreach : IncReaches env0 "S" "S" :=
    ⟨"T", ⟨["T"], rfl, by decide⟩,
      IncReachRT.head ⟨["S"], rfl, by decide⟩ (IncReachRT.refl "S")⟩
  have hmain := c6_submodule_cycle env0 "M" "S" hc (by decide) (Or.inl hreach)
  exact ⟨⟨hc, by decide⟩, hmain.1, hmain.2 ctx0 "2021-02-03" ["S"] true (by decide)⟩
